import Mathlib

/-!
Shallow embedding of the web-scraper module (`src/web_scraper/src/scraper.py`)
and proofs of the frozen specification claims.

Python strings are modelled as `List Char` (one entry per code point), so the
usual list induction principles apply to the text-normalization pipeline.
In the Python class body later `def`s of the same method name shadow earlier
ones, so the effective definitions embedded here are the last occurrences of
`_get_page_with_requests`, `_get_page_with_playwright` and
`extract_article_content` in the file.
-/

set_option maxRecDepth 40000

namespace Scraper

/-- Python strings modelled as lists of code points. -/
abbrev Str := List Char

/-- Characters matched by Python's `\s` regex class / `str.split()` /
`str.strip()` (the ASCII whitespace set that the scraped texts use). -/
def isPySpace (c : Char) : Bool :=
  c == ' ' || c == '\t' || c == '\n' || c == '\r' || c == '\x0b' || c == '\x0c'

/-- Model of `re.sub(r'\s+', ' ', text)`: each maximal run of whitespace becomes one
single space.  The boolean argument records whether the previously emitted
character was (the replacement of) whitespace. -/
def collapseAux (prevWs : Bool) : Str → Str
  | [] => []
  | c :: cs =>
    if isPySpace c then
      if prevWs then collapseAux true cs else ' ' :: collapseAux true cs
    else
      c :: collapseAux false cs

/-- Model of `str.strip()`: drop leading and trailing whitespace. -/
def pyStrip (s : Str) : Str :=
  ((s.dropWhile isPySpace).reverse.dropWhile isPySpace).reverse

/-- Helper of `pySplit`; `acc` is the reversed current word. -/
def wordsAux (acc : Str) : Str → List Str
  | [] => if acc = [] then [] else [acc.reverse]
  | c :: cs =>
    if isPySpace c then
      if acc = [] then wordsAux [] cs else acc.reverse :: wordsAux [] cs
    else
      wordsAux (c :: acc) cs

/-- Model of `str.split()` with no arguments: maximal non-whitespace runs, empties
dropped. -/
def pySplit (s : Str) : List Str := wordsAux [] s

/-- Model of `' '.join(words)`. -/
def joinSpace : List Str → Str
  | [] => []
  | [w] => w
  | w :: ws => w ++ ' ' :: joinSpace ws

/-- Model of `WebScraper.clean_text` (scraper.py lines 514-520):
`return ' '.join(re.sub(r'\s+', ' ', text, flags=re.UNICODE).strip().split())`
with the falsy guard `if not text: return ''`. -/
def clean_text (s : Str) : Str :=
  if s = [] then [] else joinSpace (wordsAux [] (pyStrip (collapseAux false s)))

/-! ### Lemmas about the normalization pipeline -/

theorem wordsAux_collapseAux (s : Str) :
    ∀ (b : Bool) (acc : Str), (b = true → acc = []) →
      wordsAux acc (collapseAux b s) = wordsAux acc s := by
  induction s with
  | nil => intro b acc _; rfl
  | cons c cs ih =>
    intro b acc hb
    by_cases hws : isPySpace c
    · cases b with
      | true =>
        have hacc : acc = [] := hb rfl
        subst hacc
        simp only [collapseAux, hws, if_true, wordsAux]
        exact ih true [] (fun _ => rfl)
      | false =>
        have hsp : isPySpace ' ' = true := rfl
        simp only [collapseAux, hws, if_true, Bool.false_eq_true, if_false, wordsAux, hsp]
        by_cases hacc : acc = []
        · simp only [hacc, if_true]
          exact ih true [] (fun _ => rfl)
        · simp only [hacc, if_false]
          rw [ih true [] (fun _ => rfl)]
    · simp only [collapseAux, hws, if_false, wordsAux]
      exact ih false (c :: acc) (by simp)

theorem wordsAux_dropWhile (s : Str) :
    wordsAux [] (s.dropWhile isPySpace) = wordsAux [] s := by
  induction s with
  | nil => rfl
  | cons c cs ih =>
    by_cases hws : isPySpace c
    · simpa only [List.dropWhile_cons, hws, if_true, wordsAux] using ih
    · simp [List.dropWhile_cons, hws]

theorem wordsAux_all_ws (u : Str) (hu : ∀ c ∈ u, isPySpace c) :
    ∀ acc : Str, wordsAux acc u = if acc = [] then [] else [acc.reverse] := by
  induction u with
  | nil => intro acc; rfl
  | cons c cs ih =>
    intro acc
    have hc : isPySpace c := hu c (List.mem_cons_self c cs)
    have hcs : ∀ x ∈ cs, isPySpace x := fun x hx => hu x (List.mem_cons_of_mem c hx)
    by_cases hacc : acc = []
    · simp only [wordsAux, hc, if_true, hacc]
      exact ih hcs []
    · simp only [wordsAux, hc, if_true, hacc, if_false]
      rw [ih hcs []]
      simp

theorem wordsAux_append_ws (u : Str) (hu : ∀ c ∈ u, isPySpace c) :
    ∀ (t : Str) (acc : Str), wordsAux acc (t ++ u) = wordsAux acc t := by
  intro t
  induction t with
  | nil =>
    intro acc
    simp only [List.nil_append]
    rw [wordsAux_all_ws u hu acc]
    rfl
  | cons c cs ih =>
    intro acc
    by_cases hws : isPySpace c
    · simp only [List.cons_append, wordsAux, hws, if_true]
      by_cases hacc : acc = []
      · simp only [hacc, if_true]; exact ih []
      · simp only [hacc, if_false]
        exact congrArg (fun l => List.reverse acc :: l) (ih [])
    · simp only [List.cons_append, wordsAux, hws, if_false]
      exact ih (c :: acc)

theorem wordsAux_pyStrip (t : Str) : wordsAux [] (pyStrip t) = wordsAux [] t := by
  unfold pyStrip
  set w := t.dropWhile isPySpace with hw
  have hsplit : (w.reverse.dropWhile isPySpace).reverse ++
      (w.reverse.takeWhile isPySpace).reverse = w := by
    rw [← List.reverse_append, List.takeWhile_append_dropWhile, List.reverse_reverse]
  have hall : ∀ c ∈ (w.reverse.takeWhile isPySpace).reverse, isPySpace c := by
    intro c hc
    rw [List.mem_reverse] at hc
    exact List.mem_takeWhile_imp hc
  calc wordsAux [] (w.reverse.dropWhile isPySpace).reverse
      = wordsAux [] ((w.reverse.dropWhile isPySpace).reverse ++
          (w.reverse.takeWhile isPySpace).reverse) := by
        rw [wordsAux_append_ws _ hall]
    _ = wordsAux [] w := by rw [hsplit]
    _ = wordsAux [] t := by rw [hw, wordsAux_dropWhile]

/-- Lemma: `clean_text` computes exactly the whitespace-separated words joined by a
single space: the `re.sub` collapse and the `strip` are absorbed by the
no-argument `split`. -/
theorem clean_text_eq_words (s : Str) : clean_text s = joinSpace (pySplit s) := by
  unfold clean_text pySplit
  by_cases hs : s = []
  · subst hs; rfl
  · rw [if_neg hs, wordsAux_pyStrip, wordsAux_collapseAux s false [] (by simp)]

theorem wordsAux_words_wf (s : Str) :
    ∀ acc : Str, (∀ c ∈ acc, isPySpace c = false) →
      ∀ w ∈ wordsAux acc s, w ≠ [] ∧ ∀ c ∈ w, isPySpace c = false := by
  induction s with
  | nil =>
    intro acc hacc w hw
    by_cases h0 : acc = []
    · simp [wordsAux, h0] at hw
    · simp only [wordsAux, h0, if_false, List.mem_singleton] at hw
      subst hw
      refine ⟨by simpa using h0, ?_⟩
      intro c hc
      exact hacc c (List.mem_reverse.mp hc)
  | cons c cs ih =>
    intro acc hacc w hw
    by_cases hws : isPySpace c
    · simp only [wordsAux, hws, if_true] at hw
      by_cases h0 : acc = []
      · rw [if_pos h0] at hw
        exact ih [] (by simp) w hw
      · rw [if_neg h0] at hw
        rcases List.mem_cons.mp hw with h | h
        · subst h
          refine ⟨by simpa using h0, ?_⟩
          intro x hx
          exact hacc x (List.mem_reverse.mp hx)
        · exact ih [] (by simp) w h
    · simp only [wordsAux, hws, if_false] at hw
      refine ih (c :: acc) ?_ w hw
      intro x hx
      rcases List.mem_cons.mp hx with h | h
      · subst h; simpa using hws
      · exact hacc x h

theorem pySplit_words_wf (s : Str) :
    ∀ w ∈ pySplit s, w ≠ [] ∧ ∀ c ∈ w, isPySpace c = false :=
  wordsAux_words_wf s [] (by simp)

theorem wordsAux_word (w : Str) (hw : ∀ c ∈ w, isPySpace c = false) :
    ∀ (s acc : Str), wordsAux acc (w ++ s) = wordsAux (w.reverse ++ acc) s := by
  induction w with
  | nil => intro s acc; simp
  | cons c cs ih =>
    intro s acc
    have hc : isPySpace c = false := hw c (List.mem_cons_self c cs)
    have hcs : ∀ x ∈ cs, isPySpace x = false := fun x hx => hw x (List.mem_cons_of_mem c hx)
    simp only [List.cons_append, wordsAux, hc, Bool.false_eq_true, if_false]
    have h2 := ih hcs s (c :: acc)
    rw [show (c :: cs).reverse ++ acc = cs.reverse ++ (c :: acc) by simp]
    exact h2

theorem pySplit_joinSpace :
    ∀ ws : List Str, (∀ w ∈ ws, w ≠ [] ∧ ∀ c ∈ w, isPySpace c = false) →
      pySplit (joinSpace ws) = ws := by
  intro ws
  induction ws with
  | nil => intro _; rfl
  | cons w ws ih =>
    intro hwf
    obtain ⟨hne, hnw⟩ := hwf w (List.mem_cons_self w ws)
    have hws' : ∀ v ∈ ws, v ≠ [] ∧ ∀ c ∈ v, isPySpace c = false :=
      fun v hv => hwf v (List.mem_cons_of_mem w hv)
    cases ws with
    | nil =>
      show pySplit w = [w]
      unfold pySplit
      have h1 := wordsAux_word w hnw [] []
      simp only [List.append_nil] at h1
      rw [h1]
      simp only [wordsAux]
      rw [if_neg (by simpa using hne)]
      simp
    | cons v vs =>
      show pySplit (w ++ ' ' :: joinSpace (v :: vs)) = w :: v :: vs
      unfold pySplit
      rw [wordsAux_word w hnw (' ' :: joinSpace (v :: vs)) []]
      have hsp : isPySpace ' ' = true := rfl
      simp only [wordsAux, hsp, if_true, List.append_nil]
      rw [if_neg (by simpa using hne)]
      have := ih hws'
      unfold pySplit at this
      rw [this]
      simp

/-- Lemma: `clean_text` is idempotent. -/
theorem clean_text_idem (s : Str) : clean_text (clean_text s) = clean_text s := by
  rw [clean_text_eq_words s, clean_text_eq_words (joinSpace (pySplit s)),
    pySplit_joinSpace (pySplit s) (pySplit_words_wf s)]

/-- A string of pure whitespace cleans to the empty string. -/
theorem clean_text_all_ws (s : Str) (h : ∀ c ∈ s, isPySpace c) : clean_text s = [] := by
  rw [clean_text_eq_words]
  unfold pySplit
  rw [wordsAux_all_ws s h []]
  rfl

theorem clean_text_nil : clean_text [] = [] := rfl

/-- Attaching a single nonempty whitespace-free word and one space in front of
a cleaned nonempty string yields another cleaned (fixed-point) string. -/
theorem clean_text_word_space (p t : Str) (hp : p ≠ [])
    (hpw : ∀ c ∈ p, isPySpace c = false) (ht : clean_text t = t) (htne : t ≠ []) :
    clean_text (p ++ ' ' :: t) = p ++ ' ' :: t := by
  have hsplit : pySplit t ≠ [] := by
    intro h0
    apply htne
    rw [← ht, clean_text_eq_words, h0]
    rfl
  have hps : pySplit (p ++ ' ' :: t) = p :: pySplit t := by
    unfold pySplit
    rw [wordsAux_word p hpw (' ' :: t) []]
    have hsp : isPySpace ' ' = true := rfl
    simp only [wordsAux, hsp, if_true, List.append_nil]
    rw [if_neg (by simpa using hp)]
    simp [pySplit]
  rw [clean_text_eq_words, hps]
  cases hq : pySplit t with
  | nil => exact absurd hq hsplit
  | cons q qs =>
    show p ++ ' ' :: joinSpace (q :: qs) = p ++ ' ' :: t
    have : joinSpace (pySplit t) = t := by rw [← clean_text_eq_words, ht]
    rw [← hq, this]

/-! ### Content classifier (`extract_article_content`, scraper.py lines 609-714)

The HTML-parsing layer (BeautifulSoup selector probing and `find_all`) is the
unmodelled boundary: the classifier is embedded as a walk over the list of
text-bearing elements that `main_content.find_all([...])` yields, each element
carrying its tag and its raw `get_text()` string. -/

/-- The tags requested by `find_all(['p', 'div', 'span', 'h1', ..., 'h6',
'pre', 'blockquote'])`. -/
inductive Tag where
  | p | div | span | h1 | h2 | h3 | h4 | h5 | h6 | pre | blockquote
  deriving DecidableEq

/-- Test `elem.name in ['h1', 'h2', 'h3', 'h4', 'h5', 'h6']`. -/
def Tag.isHeading : Tag → Bool
  | .h1 | .h2 | .h3 | .h4 | .h5 | .h6 => true
  | _ => false

/-- One text-bearing element: its tag and its raw `elem.get_text()` text. -/
structure Elem where
  tag : Tag
  text : Str

/-- The `content` dictionary built by the classifier.  Python dicts preserve
insertion order, so `sections` is an ordered association list. -/
structure Content where
  verses : List Str
  meanings : List Str
  paragraphs : List Str
  sections : List (Str × List Str)
  deriving DecidableEq

def Content.empty : Content := ⟨[], [], [], []⟩

/-- Walk state: the content accumulated so far plus `current_section`. -/
structure WalkState where
  content : Content
  cur : Str
  deriving DecidableEq

/-- The fixed marker set
`['॥', '।', 'ॐ', 'नमः', 'शिव', 'हर', 'राम', 'कृष्ण']`. -/
def devanagari_chars : List Str :=
  ["॥".toList, "।".toList, "ॐ".toList, "नमः".toList, "शिव".toList,
   "हर".toList, "राम".toList, "कृष्ण".toList]

/-- The meaning/translation marker words
`['meaning', 'अर्थ', 'भावार्थ', 'explanation', 'translation']`. -/
def meaning_words : List Str :=
  ["meaning".toList, "अर्थ".toList, "भावार्थ".toList, "explanation".toList,
   "translation".toList]

/-- Model of `text.lower()` (ASCII case folding; the marker terms are ASCII or
caseless Devanagari). -/
def lowerStr (s : Str) : Str := s.map Char.toLower

/-- Python's `pat in s` on strings: contiguous substring occurrence. -/
def isSubstr (pat : Str) : Str → Bool
  | [] => pat.isEmpty
  | c :: cs => pat.isPrefixOf (c :: cs) || isSubstr pat cs

/-- Test `any(char in text for char in devanagari_chars) or len(text) > 50`. -/
def isVerseText (t : Str) : Bool :=
  devanagari_chars.any (fun m => isSubstr m t) || t.length > 50

/-- Test `any(word in text.lower() for word in [...])`. -/
def isMeaningText (t : Str) : Bool :=
  meaning_words.any (fun m => isSubstr m (lowerStr t))

/-- Model of `content['sections'][key].append(item)`: append to the (first) entry of
`key`; a no-op when the key is absent. -/
def addToSection (secs : List (Str × List Str)) (key item : Str) :
    List (Str × List Str) :=
  match secs with
  | [] => []
  | (k, items) :: rest =>
    if k = key then (k, items ++ [item]) :: rest
    else (k, items) :: addToSection rest key item

/-- Test `current_section in content['sections']`. -/
def hasKey (secs : List (Str × List Str)) (key : Str) : Bool :=
  secs.any (fun kv => kv.1 == key)

def verseMark : Str := "VERSE: ".toList
def meaningMark : Str := "MEANING: ".toList

/-- Heading handling: set `current_section` to the heading's text and create
an empty segment list for it when unseen (scraper.py lines 669-673). -/
def headingUpd (st : WalkState) (t : Str) : WalkState :=
  { st with
    cur := t
    content := { st.content with
      sections := if hasKey st.content.sections t then st.content.sections
                  else st.content.sections ++ [(t, [])] } }

/-- Verse insertion: append to `content['verses']` and, when the current
section key exists, append the `VERSE: `-prefixed text to its segment list
(scraper.py lines 678-681). -/
def verseUpd (st : WalkState) (t : Str) : WalkState :=
  { st with content := { st.content with
    verses := st.content.verses ++ [t]
    sections := if hasKey st.content.sections st.cur then
        addToSection st.content.sections st.cur (verseMark ++ t)
      else st.content.sections } }

/-- Meaning insertion (scraper.py lines 684-687). -/
def meaningUpd (st : WalkState) (t : Str) : WalkState :=
  { st with content := { st.content with
    meanings := st.content.meanings ++ [t]
    sections := if hasKey st.content.sections st.cur then
        addToSection st.content.sections st.cur (meaningMark ++ t)
      else st.content.sections } }

/-- Paragraph insertion (scraper.py lines 690-693). -/
def paraUpd (st : WalkState) (t : Str) : WalkState :=
  { st with content := { st.content with
    paragraphs := st.content.paragraphs ++ [t]
    sections := if hasKey st.content.sections st.cur then
        addToSection st.content.sections st.cur t
      else st.content.sections } }

/-- The body of the `for elem in elements` loop of `extract_article_content`
(scraper.py lines 658-693). -/
def step (st : WalkState) (e : Elem) : WalkState :=
  if e.text.all isPySpace then st
  else
    let t := clean_text e.text
    if t.length < 10 then st
    else if e.tag.isHeading then headingUpd st t
    else if isVerseText t then
      if t ∈ st.content.verses then st else verseUpd st t
    else if isMeaningText t then
      if t ∈ st.content.meanings then st else meaningUpd st t
    else if t.length > 30 then
      if t ∈ st.content.paragraphs then st else paraUpd st t
    else st

/-- Initial walk state: empty content, `current_section = 'General'`. -/
def initState : WalkState := ⟨Content.empty, "General".toList⟩

/-- The classifier walk over the elements of the main content area. -/
def walkElems (elems : List Elem) : Content :=
  (elems.foldl step initState).content

/-- The `full_text_parts` assembly (scraper.py lines 696-710). -/
def full_text_parts (c : Content) : List Str :=
  (if c.verses = [] then [] else "VERSES:".toList :: c.verses) ++
  (if c.meanings = [] then [] else "\nMEANINGS:".toList :: c.meanings) ++
  (if c.sections = [] then [] else
    "\nSECTIONS:".toList ::
      c.sections.flatMap (fun kv =>
        ("\n--- ".toList ++ kv.1 ++ " ---".toList) :: kv.2))

/-- Model of `sep.join(parts)`. -/
def joinSep (sep : Str) : List Str → Str
  | [] => []
  | [w] => w
  | w :: ws => w ++ sep ++ joinSep sep ws

/-- Assignment `content['full_text'] = '\n\n'.join(full_text_parts)`. -/
def full_text (c : Content) : Str :=
  joinSep "\n\n".toList (full_text_parts c)

/-- Model of `extract_article_content` on the generic (non-template) path: the walk
output together with the rendered `full_text`. -/
def extract_article_content (elems : List Elem) : Content × Str :=
  let c := walkElems elems
  (c, full_text c)

/-! ### Fetch orchestrator (`get_page` and the three adapters)

A fetched HTTP response / rendered page is modelled by its raw textual
content together with the list of string nodes of its parsed document (the
strings that `soup.find(string=re.compile(...))` scans).  One adapter attempt
either raises a transport-level error (the exception kind each adapter's
`except` clause catches: `requests.exceptions.RequestException` for the HTTP
adapter, `Exception` for the Playwright and ScrapingBee adapters) or yields a
response; attempts are supplied as an oracle indexed by the attempt number. -/

/-- A candidate page: raw content plus the parsed document's string nodes. -/
structure Page where
  content : Str
  nodes : List Str
  deriving DecidableEq

/-- The result of one adapter attempt. -/
inductive Outcome where
  | raise
  | fetched (p : Page)

/-- The blocklist `['captcha', 'access denied', 'cloudflare']`. -/
def blocklist : List Str :=
  ["captcha".toList, "access denied".toList, "cloudflare".toList]

/-- Test `any(term in content.lower() for term in [...])`. -/
def containsTerm (s : Str) : Bool :=
  blocklist.any (fun term => isSubstr term (lowerStr s))

/-- Test whether `soup.find(string=re.compile(r'(?i)captcha|access denied|cloudflare'))`
found a matching string node. -/
def nodesFlagged (nodes : List Str) : Bool :=
  nodes.any (fun n => containsTerm n)

/-- Acceptance gate of `_get_page_with_playwright` (scraper.py lines 487-500):
length, raw blocklist scan, and the re-scan of the parsed document. -/
def acceptPlaywright (p : Page) : Bool :=
  !(p.content.length < 1000) && !containsTerm p.content && !nodesFlagged p.nodes

/-- Acceptance gate of `_get_page_with_requests` (scraper.py lines 347-363):
length, raw blocklist scan, and the re-scan of the parsed document. -/
def acceptRequests (p : Page) : Bool :=
  !(p.content.length < 1000) && !containsTerm p.content && !nodesFlagged p.nodes

/-- Acceptance gate of `_get_page_with_scrapingbee` (scraper.py lines
416-424): length and raw blocklist scan only — the function parses the
response and returns it with no re-scan of the parsed document. -/
def acceptScrapingbee (p : Page) : Bool :=
  !(p.content.length < 1000) && !containsTerm p.content

/-- The fixed User-Agent pool `self.user_agents` (scraper.py lines 62-68). -/
def user_agents : List String :=
  ["Mozilla/5.0 (Windows NT 10.0; Win64; x64) AppleWebKit/537.36 (KHTML, like Gecko) Chrome/120.0.0.0 Safari/537.36",
   "Mozilla/5.0 (Windows NT 10.0; Win64; x64; rv:109.0) Gecko/20100101 Firefox/119.0",
   "Mozilla/5.0 (Macintosh; Intel Mac OS X 10_15_7) AppleWebKit/537.36 (KHTML, like Gecko) Chrome/120.0.0.0 Safari/537.36",
   "Mozilla/5.0 (Windows NT 10.0; Win64; x64) AppleWebKit/537.36 (KHTML, like Gecko) Chrome/119.0.0.0 Safari/537.36 Edg/119.0.0.0",
   "Mozilla/5.0 (Windows NT 10.0; Win64; x64) AppleWebKit/537.36 (KHTML, like Gecko) Chrome/120.0.0.0 Safari/537.36 OPR/106.0.0.0"]

/-- Trace of one `_get_page_with_requests` run: the returned page, how many
times `session.get` was invoked, the backoff sleeps performed (in order), and
the User-Agent chosen for each attempt (in order). -/
structure ReqTrace where
  result : Option Page
  calls : Nat
  waits : List Nat
  uas : List String
  deriving DecidableEq

/-- The retry loop of `_get_page_with_requests` (scraper.py lines 320-379):
attempt `k` uses `user_agents[k % len(user_agents)]`, sleeps `2 ** k` seconds
first when `k > 0`, and a `RequestException` (here: `Outcome.raise`) or a
gate rejection moves on to the next attempt; when the final attempt fails the
function returns `None`. -/
def requestsRun (t : Nat → Outcome) (k : Nat) : Nat → ReqTrace
  | 0 => ⟨none, 0, [], []⟩
  | rem + 1 =>
    let w : List Nat := if k > 0 then [2 ^ k] else []
    let ua := user_agents.getD (k % user_agents.length) ""
    match t k with
    | .raise =>
      let rest := requestsRun t (k + 1) rem
      ⟨rest.result, rest.calls + 1, w ++ rest.waits, ua :: rest.uas⟩
    | .fetched p =>
      if acceptRequests p then ⟨some p, 1, w, [ua]⟩
      else
        let rest := requestsRun t (k + 1) rem
        ⟨rest.result, rest.calls + 1, w ++ rest.waits, ua :: rest.uas⟩

/-- Orchestrator configuration and the per-adapter attempt oracles. -/
structure Cfg where
  use_playwright : Bool
  page_ready : Bool
  use_scrapingbee : Bool
  api_key : Option String
  pwTry : Nat → Outcome
  httpTry : Nat → Outcome
  beeTry : Nat → Outcome
  max_retries : Nat

/-- Guard `self.use_playwright and hasattr(self, 'page') and self.page`. -/
def Cfg.pwActive (cfg : Cfg) : Bool := cfg.use_playwright && cfg.page_ready

/-- Guard `self.use_scrapingbee and self.scrapingbee_api_key`. -/
def Cfg.beeConfigured (cfg : Cfg) : Bool := cfg.use_scrapingbee && cfg.api_key.isSome

/-- Result of `_get_page_with_requests`. -/
def get_page_with_requests (cfg : Cfg) : Option Page :=
  (requestsRun cfg.httpTry 0 cfg.max_retries).result

/-- The retry loop of `_get_page_with_playwright` (scraper.py lines 451-512):
a rejected page moves to the next attempt; an exception on the final attempt
returns `self._get_page_with_requests(url, max_retries)`; an exception on an
earlier attempt sleeps and retries; a rejected final attempt lets the loop
fall through, returning `None`. -/
def playwrightAux (cfg : Cfg) (k : Nat) : Nat → Option Page
  | 0 => none
  | rem + 1 =>
    match cfg.pwTry k with
    | .fetched p =>
      if acceptPlaywright p then some p else playwrightAux cfg (k + 1) rem
    | .raise =>
      if rem = 0 then get_page_with_requests cfg
      else playwrightAux cfg (k + 1) rem

/-- Model of `_get_page_with_playwright` (scraper.py lines 445-512). -/
def get_page_with_playwright (cfg : Cfg) : Option Page :=
  if cfg.use_playwright && cfg.page_ready then playwrightAux cfg 0 cfg.max_retries
  else none

/-- The retry loop of `_get_page_with_scrapingbee` (scraper.py lines
386-443): exceptions and rejections move to the next attempt, and the
function returns `None` after the loop. -/
def scrapingbeeAux (cfg : Cfg) (k : Nat) : Nat → Option Page
  | 0 => none
  | rem + 1 =>
    match cfg.beeTry k with
    | .raise => scrapingbeeAux cfg (k + 1) rem
    | .fetched p =>
      if acceptScrapingbee p then some p else scrapingbeeAux cfg (k + 1) rem

/-- Model of `_get_page_with_scrapingbee` (scraper.py lines 381-443). -/
def get_page_with_scrapingbee (cfg : Cfg) : Option Page :=
  if cfg.use_scrapingbee && cfg.api_key.isSome then scrapingbeeAux cfg 0 cfg.max_retries
  else none

/-- Model of `WebScraper.get_page` (scraper.py lines 160-187): Playwright first (when
enabled and initialized), then requests, then ScrapingBee (when configured),
else `None`. -/
def get_page (cfg : Cfg) : Option Page :=
  match (if cfg.use_playwright && cfg.page_ready then get_page_with_playwright cfg
         else none) with
  | some p => some p
  | none =>
    match get_page_with_requests cfg with
    | some p => some p
    | none =>
      if cfg.use_scrapingbee && cfg.api_key.isSome then get_page_with_scrapingbee cfg
      else none

/-- The page produced by attempt `i` when it is accepted by `accept`. -/
def attemptFilter (accept : Page → Bool) (t : Nat → Outcome) (i : Nat) :
    Option Page :=
  match t i with
  | .fetched p => if accept p then some p else none
  | .raise => none

/-- Modelled from the spec's sequencing policy (§4.1): the first accepted
page of the browser attempts (when that adapter is enabled and initialized),
else the first accepted page of the HTTP attempts, else — only when the proxy
credential is configured — the first accepted page of the proxy attempts,
else the absence value. -/
def firstAccepted (t : Nat → Outcome) (accept : Page → Bool) (maxR : Nat) :
    Option Page :=
  (List.range maxR).findSome? (attemptFilter accept t)

/-- Modelled from the spec's sequencing policy (§4.1), to be compared with
`get_page`. -/
def specFetch (cfg : Cfg) : Option Page :=
  match (if cfg.pwActive then firstAccepted cfg.pwTry acceptPlaywright cfg.max_retries
         else none) with
  | some p => some p
  | none =>
    match firstAccepted cfg.httpTry acceptRequests cfg.max_retries with
    | some p => some p
    | none =>
      if cfg.beeConfigured then firstAccepted cfg.beeTry acceptScrapingbee cfg.max_retries
      else none

/-! ### Specialized template extractor (`_extract_shiva_tandav_content`,
scraper.py lines 788-886)

Same walk as the generic classifier but with an expanded verse-marker set, a
default section name, and an aggressive second pass; the whole body —
including the `full_text` assignment — sits in a `try` whose handler returns
the `content` dict accumulated so far.  An unexpected error while walking is
modelled by `raiseAt = some k`: the exception fires after `k` elements of the
primary pass were processed. -/

/-- Expanded marker set of the specialized path (scraper.py line 830). -/
def shiva_devanagari : List Str :=
  devanagari_chars ++ ["तांडव".toList, "ताण्डव".toList]

def isShivaVerseText (t : Str) : Bool :=
  shiva_devanagari.any (fun m => isSubstr m t) || t.length > 50

/-- Loop body of the primary pass (scraper.py lines 810-847): identical to
`step` except for the expanded verse-marker set. -/
def shivaStep (st : WalkState) (e : Elem) : WalkState :=
  if e.text.all isPySpace then st
  else
    let t := clean_text e.text
    if t.length < 10 then st
    else if e.tag.isHeading then headingUpd st t
    else if isShivaVerseText t then
      if t ∈ st.content.verses then st else verseUpd st t
    else if isMeaningText t then
      if t ∈ st.content.meanings then st else meaningUpd st t
    else if t.length > 30 then
      if t ∈ st.content.paragraphs then st else paraUpd st t
    else st

/-- Initial state `current_section = 'Shiva Tandav Stotram'`, empty content. -/
def shivaInit : WalkState := ⟨Content.empty, "Shiva Tandav Stotram".toList⟩

/-- Markers of the aggressive pass `['॥', '।', 'ॐ']` (scraper.py line 858). -/
def aggressiveMarkers : List Str := ["॥".toList, "।".toList, "ॐ".toList]

/-- Loop body of the aggressive pass over all tags (scraper.py lines
853-862). -/
def aggrStep (st : WalkState) (e : Elem) : WalkState :=
  if e.text.all isPySpace then st
  else
    let t := clean_text e.text
    if t.length > 50 && aggressiveMarkers.any (fun m => isSubstr m t) then
      if t ∈ st.content.verses then st else verseUpd st t
    else st

/-- The input of the specialized extractor: the elements of the primary pass
(`article.find_all(['p', 'h1', ..., 'div'])`), the elements of the
aggressive pass (`article.find_all(True)`), and the position — if any — at
which an unexpected error fires during the primary pass. -/
structure ShivaDoc where
  elems : List Elem
  allElems : List Elem
  raiseAt : Option Nat

/-- The content dict so far, plus whether the `full_text` key has been set
(the `try` block assigns it only as its last statement). -/
structure ContentFT where
  content : Content
  fullText : Option Str
  deriving DecidableEq

/-- The primary pass inside the `try`: `Except` carries the state accumulated
at the point where the unexpected error fires. -/
def shivaLoop : Option Nat → WalkState → List Elem → Except WalkState WalkState
  | some 0, st, _ => .error st
  | _, st, [] => .ok st
  | some (j + 1), st, e :: es => shivaLoop (some j) (shivaStep st e) es
  | none, st, e :: es => shivaLoop none (shivaStep st e) es

/-- The `try` body: primary pass, aggressive pass when no verse was found,
then the `full_text` assignment. -/
def shivaTry (d : ShivaDoc) : Except WalkState ContentFT :=
  match shivaLoop d.raiseAt shivaInit d.elems with
  | .error st => .error st
  | .ok st =>
    let st2 := if st.content.verses = [] then d.allElems.foldl aggrStep st else st
    .ok ⟨st2.content, some (full_text st2.content)⟩

/-- Model of `_extract_shiva_tandav_content`: the `except Exception` handler logs and
returns the `content` dict as accumulated, whose `full_text` key was never
assigned. -/
def shivaExtract (d : ShivaDoc) : ContentFT :=
  match shivaTry d with
  | .ok c => c
  | .error st => ⟨st.content, none⟩

/-! ### Report builder (`scrape_example`, scraper.py lines 769-777) -/

/-- The fields of `page_data` that the claims inspect. -/
structure ReportCounts where
  num_paragraphs : Nat
  num_verses : Nat
  num_sections : Nat
  preview : Str
  deriving DecidableEq

/-- Model of `page_data.update({... 'num_paragraphs': len(...), 'num_verses': len(...),
'num_sections': len(...), 'content_preview': full_text[:1000] + ('...' if
len(full_text) > 1000 else '')})`. -/
def scrape_page_data (c : Content) (ft : Str) : ReportCounts :=
  { num_paragraphs := c.paragraphs.length
    num_verses := c.verses.length
    num_sections := c.sections.length
    preview := ft.take 1000 ++ (if 1000 < ft.length then "...".toList else []) }

/-! ### Blocks of the canonical text report (spec §4.3 step 4) -/

/-- Modelled from the spec: the `VERSES:` block, present iff verses exist. -/
def versesBlock (c : Content) : List Str :=
  if c.verses = [] then [] else "VERSES:".toList :: c.verses

/-- Modelled from the spec: the `MEANINGS:` block, present iff meanings
exist. -/
def meaningsBlock (c : Content) : List Str :=
  if c.meanings = [] then [] else "\nMEANINGS:".toList :: c.meanings

/-- Modelled from the spec: the `SECTIONS:` block, iterating sections in
first-seen order, each a `--- name ---` header followed by its segments. -/
def sectionsBlock (c : Content) : List Str :=
  if c.sections = [] then [] else
    "\nSECTIONS:".toList ::
      c.sections.flatMap (fun kv => ("\n--- ".toList ++ kv.1 ++ " ---".toList) :: kv.2)

/-- A page yielding one sub-50-character plain paragraph and nothing else. -/
def paragraphOnlyPage : List Elem :=
  [⟨Tag.p, "a plain block of letters well past thirty".toList⟩]

/-! ## Claims -/

/-- C2 counterexample: a page whose raw content passes the length and raw
blocklist checks but whose parsed document holds a `captcha` string node is
rejected by the HTTP (and browser) gate yet accepted by the ScrapingBee
gate, so the three adapters' accept/reject decisions are not identical. -/
theorem adapter_gates_differ_cx :
    acceptScrapingbee ⟨List.replicate 1000 'a', ["captcha".toList]⟩ = true ∧
    acceptRequests ⟨List.replicate 1000 'a', ["captcha".toList]⟩ = false ∧
    acceptPlaywright ⟨List.replicate 1000 'a', ["captcha".toList]⟩ = false := by
  refine ⟨?_, ?_, ?_⟩ <;> decide

theorem acceptRequests_eq (p : Page) :
    acceptRequests p = (acceptScrapingbee p && !nodesFlagged p.nodes) := by
  unfold acceptRequests acceptScrapingbee
  cases h1 : !(p.content.length < 1000) <;>
    cases h2 : !containsTerm p.content <;>
    cases h3 : !nodesFlagged p.nodes <;> simp [h1, h2, h3]

/-- C2 (amended): the browser and HTTP adapters apply the identical
acceptance gate (length ≥ 1000, raw blocklist scan, parsed-document
re-scan); the ScrapingBee adapter omits the parsed-document re-scan, so it
accepts every page the other two accept, and any page on which its decision
differs from theirs carries a blocklist term in the parsed document's
nodes. -/
theorem adapter_gates_amended (p : Page) :
    acceptPlaywright p = acceptRequests p ∧
    (acceptRequests p = true → acceptScrapingbee p = true) ∧
    (acceptScrapingbee p = true → acceptRequests p = false →
      nodesFlagged p.nodes = true) := by
  refine ⟨rfl, ?_, ?_⟩
  · intro h
    rw [acceptRequests_eq] at h
    exact (Bool.and_eq_true_iff.mp h).1
  · intro hb hr
    rw [acceptRequests_eq, hb, Bool.true_and] at hr
    simpa using hr

/-- Witness for `adapter_gates_amended` at a concrete accepted page. -/
theorem adapter_gates_amended_witness :
    acceptRequests ⟨List.replicate 1000 'a', []⟩ = true ∧
    acceptScrapingbee ⟨List.replicate 1000 'a', []⟩ = true := by
  refine ⟨by decide, adapter_gates_amended ⟨List.replicate 1000 'a', []⟩ |>.2.1 (by decide)⟩

/-- C7: the rendered report is exactly the VERSES block, then the MEANINGS
block, then the SECTIONS block, each omitted iff its source is empty, the
SECTIONS block iterating sections in first-seen order with a
`--- name ---` header before each section's segments; a page that yields
only paragraphs (no verses, meanings, or sections) renders the empty
string. -/
theorem full_text_rendering (c : Content) :
    full_text_parts c = versesBlock c ++ meaningsBlock c ++ sectionsBlock c ∧
    (versesBlock c = [] ↔ c.verses = []) ∧
    (meaningsBlock c = [] ↔ c.meanings = []) ∧
    (sectionsBlock c = [] ↔ c.sections = []) ∧
    (c.verses = [] → c.meanings = [] → c.sections = [] → full_text c = []) := by
  refine ⟨rfl, ?_, ?_, ?_, ?_⟩
  · unfold versesBlock
    by_cases h : c.verses = [] <;> simp [h]
  · unfold meaningsBlock
    by_cases h : c.meanings = [] <;> simp [h]
  · unfold sectionsBlock
    by_cases h : c.sections = [] <;> simp [h]
  · intro h1 h2 h3
    unfold full_text full_text_parts
    rw [if_pos h1, if_pos h2, if_pos h3]
    rfl

/-- Witness for `full_text_rendering`: a concrete paragraph-only page renders
the empty `full_text`. -/
theorem full_text_rendering_witness :
    (walkElems paragraphOnlyPage).verses = [] ∧
    (walkElems paragraphOnlyPage).meanings = [] ∧
    (walkElems paragraphOnlyPage).sections = [] ∧
    (walkElems paragraphOnlyPage).paragraphs ≠ [] ∧
    (extract_article_content paragraphOnlyPage).2 = [] := by
  refine ⟨by decide, by decide, by decide, by decide, ?_⟩
  exact (full_text_rendering (walkElems paragraphOnlyPage)).2.2.2.2
    (by decide) (by decide) (by decide)

/-- C8: `content_preview` is the first 1000 characters of `full_text` with
the literal `...` appended iff `len(full_text) > 1000` (exactly 1000 chars:
no ellipsis; 1001 chars: exactly 1000 characters plus the marker), and the
reported counts equal the lengths of the classifier's lists/mapping. -/
theorem scrape_example_counts_and_preview (c : Content) (ft : Str) :
    (scrape_page_data c ft).num_verses = c.verses.length ∧
    (scrape_page_data c ft).num_paragraphs = c.paragraphs.length ∧
    (scrape_page_data c ft).num_sections = c.sections.length ∧
    (ft.length ≤ 1000 → (scrape_page_data c ft).preview = ft) ∧
    (1000 < ft.length →
      (scrape_page_data c ft).preview = ft.take 1000 ++ "...".toList ∧
      (ft.take 1000).length = 1000) ∧
    (ft.length = 1001 → ((scrape_page_data c ft).preview).length = 1003) := by
  refine ⟨rfl, rfl, rfl, ?_, ?_, ?_⟩
  · intro h
    show ft.take 1000 ++ (if 1000 < ft.length then "...".toList else []) = ft
    rw [if_neg (by omega), List.append_nil, List.take_of_length_le h]
  · intro h
    constructor
    · show ft.take 1000 ++ (if 1000 < ft.length then "...".toList else []) =
        ft.take 1000 ++ "...".toList
      rw [if_pos h]
    · rw [List.length_take]
      omega
  · intro h
    show (ft.take 1000 ++ (if 1000 < ft.length then "...".toList else [])).length = 1003
    rw [if_pos (by omega), List.length_append, List.length_take]
    simp [h]

/-! ### Classifier categories (C4, C5, C6) -/

inductive Category where
  | verse | meaning | paragraph
  deriving DecidableEq

/-- Modelled from the spec: the fixed-precedence rule chain (§4.3 step 2),
evaluated top to bottom, first match wins. -/
def classifyText (t : Str) : Option Category :=
  if isVerseText t then some .verse
  else if isMeaningText t then some .meaning
  else if t.length > 30 then some .paragraph
  else none

/-- The category's list inside the `content` dict. -/
def catList : Category → Content → List Str
  | .verse, c => c.verses
  | .meaning, c => c.meanings
  | .paragraph, c => c.paragraphs

/-- Dedup-guarded insertion: first occurrence wins, order preserved. -/
def insertNew (l : List Str) (t : Str) : List Str :=
  if t ∈ l then l else l ++ [t]

theorem raw_not_all_ws_of_len (s : Str) (h : 10 ≤ (clean_text s).length) :
    s.all isPySpace = false := by
  by_contra hall
  rw [Bool.not_eq_false] at hall
  have hclean : clean_text s = [] :=
    clean_text_all_ws s (fun c hc => List.all_eq_true.mp hall c hc)
  rw [hclean] at h
  simp at h

/-- C4: a non-heading element whose cleaned text is at least 10 characters
long is assigned the first matching category in fixed precedence order —
Verse (Devanagari marker or length > 50), else Meaning (marker word in the
lower-cased text), else Paragraph (length > 30), else it is discarded and
appears in no output list; only the matched category's list changes, by a
dedup-guarded append. -/
theorem classifier_precedence (st : WalkState) (e : Elem)
    (hh : e.tag.isHeading = false) (hlen : 10 ≤ (clean_text e.text).length) :
    (classifyText (clean_text e.text) = none → step st e = st) ∧
    (classifyText (clean_text e.text) = some .verse →
      (step st e).content.verses = insertNew st.content.verses (clean_text e.text) ∧
      (step st e).content.meanings = st.content.meanings ∧
      (step st e).content.paragraphs = st.content.paragraphs) ∧
    (classifyText (clean_text e.text) = some .meaning →
      (step st e).content.meanings = insertNew st.content.meanings (clean_text e.text) ∧
      (step st e).content.verses = st.content.verses ∧
      (step st e).content.paragraphs = st.content.paragraphs) ∧
    (classifyText (clean_text e.text) = some .paragraph →
      (step st e).content.paragraphs = insertNew st.content.paragraphs (clean_text e.text) ∧
      (step st e).content.verses = st.content.verses ∧
      (step st e).content.meanings = st.content.meanings) := by
  have hws := raw_not_all_ws_of_len e.text hlen
  have hlen' : ¬ (clean_text e.text).length < 10 := by omega
  have hstep : step st e =
      (if isVerseText (clean_text e.text) then
        (if clean_text e.text ∈ st.content.verses then st
         else verseUpd st (clean_text e.text))
       else if isMeaningText (clean_text e.text) then
        (if clean_text e.text ∈ st.content.meanings then st
         else meaningUpd st (clean_text e.text))
       else if (clean_text e.text).length > 30 then
        (if clean_text e.text ∈ st.content.paragraphs then st
         else paraUpd st (clean_text e.text))
       else st) := by
    rw [step]
    rw [if_neg (by simp [hws])]
    rw [if_neg hlen']
    rw [if_neg (by simp [hh])]
  refine ⟨?_, ?_, ?_, ?_⟩
  · intro hcl
    rw [classifyText] at hcl
    by_cases hv : isVerseText (clean_text e.text)
    · rw [if_pos hv] at hcl; exact absurd hcl (by simp)
    · rw [if_neg hv] at hcl
      by_cases hm : isMeaningText (clean_text e.text)
      · rw [if_pos hm] at hcl; exact absurd hcl (by simp)
      · rw [if_neg hm] at hcl
        by_cases hp : (clean_text e.text).length > 30
        · rw [if_pos hp] at hcl; exact absurd hcl (by simp)
        · rw [hstep, if_neg (by simpa using hv), if_neg (by simpa using hm),
            if_neg (by simpa using hp)]
  · intro hcl
    rw [classifyText] at hcl
    have hv : isVerseText (clean_text e.text) = true := by
      by_contra hv
      rw [if_neg hv] at hcl
      by_cases hm : isMeaningText (clean_text e.text)
      · rw [if_pos hm] at hcl; exact absurd hcl (by simp)
      · rw [if_neg hm] at hcl
        by_cases hp : (clean_text e.text).length > 30
        · rw [if_pos hp] at hcl; exact absurd hcl (by simp)
        · rw [if_neg hp] at hcl; exact absurd hcl (by simp)
    rw [hstep, if_pos hv, insertNew]
    by_cases hmem : clean_text e.text ∈ st.content.verses
    · rw [if_pos hmem, if_pos hmem]
      exact ⟨rfl, rfl, rfl⟩
    · rw [if_neg hmem, if_neg hmem]
      exact ⟨rfl, rfl, rfl⟩
  · intro hcl
    rw [classifyText] at hcl
    have hv : isVerseText (clean_text e.text) = false := by
      by_contra hv
      rw [Bool.not_eq_false] at hv
      rw [if_pos hv] at hcl
      exact absurd hcl (by simp)
    rw [if_neg (by simp [hv])] at hcl
    have hm : isMeaningText (clean_text e.text) = true := by
      by_contra hm
      rw [if_neg hm] at hcl
      by_cases hp : (clean_text e.text).length > 30
      · rw [if_pos hp] at hcl; exact absurd hcl (by simp)
      · rw [if_neg hp] at hcl; exact absurd hcl (by simp)
    rw [hstep, if_neg (by simp [hv]), if_pos hm, insertNew]
    by_cases hmem : clean_text e.text ∈ st.content.meanings
    · rw [if_pos hmem, if_pos hmem]
      exact ⟨rfl, rfl, rfl⟩
    · rw [if_neg hmem, if_neg hmem]
      exact ⟨rfl, rfl, rfl⟩
  · intro hcl
    rw [classifyText] at hcl
    have hv : isVerseText (clean_text e.text) = false := by
      by_contra hv
      rw [Bool.not_eq_false] at hv
      rw [if_pos hv] at hcl
      exact absurd hcl (by simp)
    rw [if_neg (by simp [hv])] at hcl
    have hm : isMeaningText (clean_text e.text) = false := by
      by_contra hm
      rw [Bool.not_eq_false] at hm
      rw [if_pos hm] at hcl
      exact absurd hcl (by simp)
    rw [if_neg (by simp [hm])] at hcl
    have hp : (clean_text e.text).length > 30 := by
      by_contra hp
      rw [if_neg hp] at hcl
      exact absurd hcl (by simp)
    rw [hstep, if_neg (by simp [hv]), if_neg (by simp [hm]), if_pos hp, insertNew]
    by_cases hmem : clean_text e.text ∈ st.content.paragraphs
    · rw [if_pos hmem, if_pos hmem]
      exact ⟨rfl, rfl, rfl⟩
    · rw [if_neg hmem, if_neg hmem]
      exact ⟨rfl, rfl, rfl⟩

/-- A 41-character plain-language element used as a concrete paragraph. -/
def demoParagraphElem : Elem :=
  ⟨Tag.p, "a plain block of letters well past thirty".toList⟩

/-- Witness for `classifier_precedence`: the concrete 41-character plain
element is classified as a Paragraph and appended. -/
theorem classifier_precedence_witness :
    (demoParagraphElem.tag.isHeading = false ∧
      10 ≤ (clean_text demoParagraphElem.text).length ∧
      classifyText (clean_text demoParagraphElem.text) = some .paragraph) ∧
    (step initState demoParagraphElem).content.paragraphs =
      insertNew initState.content.paragraphs (clean_text demoParagraphElem.text) := by
  refine ⟨⟨by decide, by decide, by decide⟩, ?_⟩
  exact ((classifier_precedence initState demoParagraphElem (by decide)
    (by decide)).2.2.2 (by decide)).1

/-! ### Walk invariants (C5, C6, C10) -/

theorem classifyText_verse_iff (t : Str) :
    classifyText t = some .verse ↔ isVerseText t = true := by
  rw [classifyText]
  by_cases hv : isVerseText t
  · simp [hv]
  · rw [if_neg hv]
    by_cases hm : isMeaningText t
    · simp [hm, hv]
    · rw [if_neg hm]
      by_cases hp : t.length > 30 <;> simp [hp, hv]

theorem classifyText_meaning_iff (t : Str) :
    classifyText t = some .meaning ↔
      (isVerseText t = false ∧ isMeaningText t = true) := by
  rw [classifyText]
  by_cases hv : isVerseText t
  · simp [hv]
  · rw [if_neg hv]
    by_cases hm : isMeaningText t
    · simp [hm, hv]
    · rw [if_neg hm]
      by_cases hp : t.length > 30 <;> simp [hp, hv, hm]

theorem classifyText_paragraph_iff (t : Str) :
    classifyText t = some .paragraph ↔
      (isVerseText t = false ∧ isMeaningText t = false ∧ t.length > 30) := by
  rw [classifyText]
  by_cases hv : isVerseText t
  · simp [hv]
  · rw [if_neg hv]
    by_cases hm : isMeaningText t
    · simp [hm, hv]
    · rw [if_neg hm]
      by_cases hp : t.length > 30 <;> simp [hp, hv, hm]

/-- Every `step` result is one of: the unchanged state, a heading update, or
one of the three dedup-guarded insertions of the at-least-10-character
cleaned text. -/
theorem step_shape (st : WalkState) (e : Elem) :
    step st e = st ∨
    (10 ≤ (clean_text e.text).length ∧
      ((e.tag.isHeading = true ∧ step st e = headingUpd st (clean_text e.text)) ∨
       (clean_text e.text ∉ st.content.verses ∧
         step st e = verseUpd st (clean_text e.text)) ∨
       (clean_text e.text ∉ st.content.meanings ∧
         step st e = meaningUpd st (clean_text e.text)) ∨
       (clean_text e.text ∉ st.content.paragraphs ∧
         step st e = paraUpd st (clean_text e.text)))) := by
  by_cases h1 : e.text.all isPySpace = true
  · left; simp [step, h1]
  by_cases h2 : (clean_text e.text).length < 10
  · left
    rw [step, if_neg (by simpa using h1), if_pos h2]
  have hlen : 10 ≤ (clean_text e.text).length := by omega
  have hstep : step st e =
      (if e.tag.isHeading then headingUpd st (clean_text e.text)
       else if isVerseText (clean_text e.text) then
        (if clean_text e.text ∈ st.content.verses then st
         else verseUpd st (clean_text e.text))
       else if isMeaningText (clean_text e.text) then
        (if clean_text e.text ∈ st.content.meanings then st
         else meaningUpd st (clean_text e.text))
       else if (clean_text e.text).length > 30 then
        (if clean_text e.text ∈ st.content.paragraphs then st
         else paraUpd st (clean_text e.text))
       else st) := by
    rw [step, if_neg (by simpa using h1), if_neg h2]
  rw [hstep]
  by_cases hh : e.tag.isHeading = true
  · right
    exact ⟨hlen, Or.inl ⟨hh, by rw [if_pos hh]⟩⟩
  rw [if_neg hh]
  by_cases hv : isVerseText (clean_text e.text)
  · rw [if_pos hv]
    by_cases hmem : clean_text e.text ∈ st.content.verses
    · left; rw [if_pos hmem]
    · right
      exact ⟨hlen, Or.inr (Or.inl ⟨hmem, by rw [if_neg hmem]⟩)⟩
  rw [if_neg hv]
  by_cases hm : isMeaningText (clean_text e.text)
  · rw [if_pos hm]
    by_cases hmem : clean_text e.text ∈ st.content.meanings
    · left; rw [if_pos hmem]
    · right
      exact ⟨hlen, Or.inr (Or.inr (Or.inl ⟨hmem, by rw [if_neg hmem]⟩))⟩
  rw [if_neg hm]
  by_cases hp : (clean_text e.text).length > 30
  · rw [if_pos hp]
    by_cases hmem : clean_text e.text ∈ st.content.paragraphs
    · left; rw [if_pos hmem]
    · right
      exact ⟨hlen, Or.inr (Or.inr (Or.inr ⟨hmem, by rw [if_neg hmem]⟩))⟩
  · left; rw [if_neg hp]

/-- Generic preservation of an invariant along the classifier walk. -/
theorem foldl_step_inv {P : WalkState → Prop} :
    ∀ (elems : List Elem) (st : WalkState), P st →
      (∀ (st' : WalkState) (e : Elem), e ∈ elems → P st' → P (step st' e)) →
      P (List.foldl step st elems) := by
  intro elems
  induction elems with
  | nil => intro st h _; exact h
  | cons e es ih =>
    intro st h hstep
    exact ih (step st e) (hstep st e (by simp) h)
      (fun st' x hx h' => hstep st' x (by simp [hx]) h')

theorem step_nodup (st : WalkState) (e : Elem)
    (h : st.content.verses.Nodup ∧ st.content.meanings.Nodup ∧
         st.content.paragraphs.Nodup) :
    (step st e).content.verses.Nodup ∧ (step st e).content.meanings.Nodup ∧
    (step st e).content.paragraphs.Nodup := by
  rcases step_shape st e with h0 | ⟨_, ⟨_, h0⟩ | ⟨hmem, h0⟩ | ⟨hmem, h0⟩ | ⟨hmem, h0⟩⟩ <;>
    rw [h0]
  · exact h
  · exact h
  · exact ⟨by simp [verseUpd, List.nodup_append, h.1, hmem], h.2.1, h.2.2⟩
  · exact ⟨h.1, by simp [meaningUpd, List.nodup_append, h.2.1, hmem], h.2.2⟩
  · exact ⟨h.1, h.2.1, by simp [paraUpd, List.nodup_append, h.2.2, hmem]⟩

/-- Membership in a category list is preserved by every further step. -/
theorem step_mem_mono (st : WalkState) (e : Elem) (cat : Category) (t : Str)
    (h : t ∈ catList cat st.content) : t ∈ catList cat (step st e).content := by
  rcases step_shape st e with h0 | ⟨_, ⟨_, h0⟩ | ⟨_, h0⟩ | ⟨_, h0⟩ | ⟨_, h0⟩⟩ <;>
    rw [h0] <;> cases cat <;>
    first
      | exact h
      | exact List.mem_append_left _ h

/-- After a non-heading classified element is processed, its cleaned text is
in its category's list. -/
theorem step_self_mem (st : WalkState) (e : Elem) (cat : Category)
    (hh : e.tag.isHeading = false) (hlen : 10 ≤ (clean_text e.text).length)
    (hcl : classifyText (clean_text e.text) = some cat) :
    clean_text e.text ∈ catList cat (step st e).content := by
  have hws := raw_not_all_ws_of_len e.text hlen
  have hstep : step st e =
      (if isVerseText (clean_text e.text) then
        (if clean_text e.text ∈ st.content.verses then st
         else verseUpd st (clean_text e.text))
       else if isMeaningText (clean_text e.text) then
        (if clean_text e.text ∈ st.content.meanings then st
         else meaningUpd st (clean_text e.text))
       else if (clean_text e.text).length > 30 then
        (if clean_text e.text ∈ st.content.paragraphs then st
         else paraUpd st (clean_text e.text))
       else st) := by
    rw [step, if_neg (by simp [hws]), if_neg (by omega), if_neg (by simp [hh])]
  cases cat with
  | verse =>
    have hv := (classifyText_verse_iff _).mp hcl
    rw [hstep, if_pos hv]
    by_cases hmem : clean_text e.text ∈ st.content.verses
    · rw [if_pos hmem]; exact hmem
    · rw [if_neg hmem]
      simp [catList, verseUpd]
  | meaning =>
    obtain ⟨hv, hm⟩ := (classifyText_meaning_iff _).mp hcl
    rw [hstep, if_neg (by simp [hv]), if_pos hm]
    by_cases hmem : clean_text e.text ∈ st.content.meanings
    · rw [if_pos hmem]; exact hmem
    · rw [if_neg hmem]
      simp [catList, meaningUpd]
  | paragraph =>
    obtain ⟨hv, hm, hp⟩ := (classifyText_paragraph_iff _).mp hcl
    rw [hstep, if_neg (by simp [hv]), if_neg (by simp [hm]), if_pos hp]
    by_cases hmem : clean_text e.text ∈ st.content.paragraphs
    · rw [if_pos hmem]; exact hmem
    · rw [if_neg hmem]
      simp [catList, paraUpd]

/-- C5: within one page's output no category list holds two identical
normalized texts (first occurrence wins), and a non-heading element whose
cleaned text its category's list already holds leaves the whole state — the
section lists included — unchanged, so sections never receive a duplicate the
top-level list rejected. -/
theorem dedup_invariant :
    (∀ elems : List Elem, (walkElems elems).verses.Nodup ∧
      (walkElems elems).meanings.Nodup ∧ (walkElems elems).paragraphs.Nodup) ∧
    (∀ (st : WalkState) (e : Elem) (cat : Category),
      e.tag.isHeading = false →
      classifyText (clean_text e.text) = some cat →
      clean_text e.text ∈ catList cat st.content →
      step st e = st) := by
  constructor
  · intro elems
    have h := foldl_step_inv (P := fun st =>
        st.content.verses.Nodup ∧ st.content.meanings.Nodup ∧
        st.content.paragraphs.Nodup)
      elems initState ⟨List.nodup_nil, List.nodup_nil, List.nodup_nil⟩
      (fun st' e _ h' => step_nodup st' e h')
    exact h
  · intro st e cat hh hcl hmem
    by_cases h1 : e.text.all isPySpace = true
    · simp [step, h1]
    by_cases h2 : (clean_text e.text).length < 10
    · rw [step, if_neg (by simpa using h1), if_pos h2]
    have hstep : step st e =
        (if isVerseText (clean_text e.text) then
          (if clean_text e.text ∈ st.content.verses then st
           else verseUpd st (clean_text e.text))
         else if isMeaningText (clean_text e.text) then
          (if clean_text e.text ∈ st.content.meanings then st
           else meaningUpd st (clean_text e.text))
         else if (clean_text e.text).length > 30 then
          (if clean_text e.text ∈ st.content.paragraphs then st
           else paraUpd st (clean_text e.text))
         else st) := by
      rw [step, if_neg (by simpa using h1), if_neg h2, if_neg (by simp [hh])]
    cases cat with
    | verse =>
      have hv := (classifyText_verse_iff _).mp hcl
      have hmem' : clean_text e.text ∈ st.content.verses := hmem
      rw [hstep, if_pos hv, if_pos hmem']
    | meaning =>
      obtain ⟨hv, hm⟩ := (classifyText_meaning_iff _).mp hcl
      have hmem' : clean_text e.text ∈ st.content.meanings := hmem
      rw [hstep, if_neg (by simp [hv]), if_pos hm, if_pos hmem']
    | paragraph =>
      obtain ⟨hv, hm, hp⟩ := (classifyText_paragraph_iff _).mp hcl
      have hmem' : clean_text e.text ∈ st.content.paragraphs := hmem
      rw [hstep, if_neg (by simp [hv]), if_neg (by simp [hm]), if_pos hp,
        if_pos hmem']

/-- Witness for `dedup_invariant`: feeding the same paragraph element twice
yields one entry, and the duplicate step is the identity on the state after
the first occurrence. -/
theorem dedup_invariant_witness :
    (demoParagraphElem.tag.isHeading = false ∧
      classifyText (clean_text demoParagraphElem.text) = some .paragraph ∧
      clean_text demoParagraphElem.text ∈
        catList .paragraph (step initState demoParagraphElem).content) ∧
    step (step initState demoParagraphElem) demoParagraphElem =
      step initState demoParagraphElem ∧
    (walkElems [demoParagraphElem, demoParagraphElem]).paragraphs.Nodup := by
  refine ⟨⟨by decide, by decide, by decide⟩, ?_, ?_⟩
  · exact (dedup_invariant).2 (step initState demoParagraphElem)
      demoParagraphElem .paragraph (by decide) (by decide) (by decide)
  · exact ((dedup_invariant).1 [demoParagraphElem, demoParagraphElem]).2.2

/-- C6: a heading element with usable text sets the current section —
creating an empty segment list for it when unseen — and is never itself
classified as content; on a page with no heading elements the section map
stays empty while the flat category lists are still populated: every
processed non-heading element's cleaned text ends up in its category's
list. -/
theorem heading_sectioning :
    (∀ (st : WalkState) (e : Elem),
      e.tag.isHeading = true → 10 ≤ (clean_text e.text).length →
      (step st e).cur = clean_text e.text ∧
      (step st e).content.verses = st.content.verses ∧
      (step st e).content.meanings = st.content.meanings ∧
      (step st e).content.paragraphs = st.content.paragraphs ∧
      (step st e).content.sections =
        (if hasKey st.content.sections (clean_text e.text) then
          st.content.sections
         else st.content.sections ++ [(clean_text e.text, [])])) ∧
    (∀ elems : List Elem, (∀ e ∈ elems, e.tag.isHeading = false) →
      (walkElems elems).sections = []) ∧
    (∀ (elems : List Elem) (e : Elem) (cat : Category),
      e ∈ elems → e.tag.isHeading = false →
      10 ≤ (clean_text e.text).length →
      classifyText (clean_text e.text) = some cat →
      clean_text e.text ∈ catList cat (walkElems elems)) := by
  refine ⟨?_, ?_, ?_⟩
  · intro st e hh hlen
    have hws := raw_not_all_ws_of_len e.text hlen
    have hstep : step st e = headingUpd st (clean_text e.text) := by
      rw [step, if_neg (by simp [hws]), if_neg (by omega), if_pos (by simp [hh])]
    rw [hstep]
    exact ⟨rfl, rfl, rfl, rfl, rfl⟩
  · intro elems hnh
    have h := foldl_step_inv (P := fun st => st.content.sections = [])
      elems initState rfl (fun st' e he h' => ?_)
    · exact h
    · rcases step_shape st' e with h0 | ⟨_, ⟨hhd, h0⟩ | ⟨_, h0⟩ | ⟨_, h0⟩ | ⟨_, h0⟩⟩ <;>
        rw [h0]
      · exact h'
      · exact absurd hhd (by simp [hnh e he])
      · show (if hasKey st'.content.sections st'.cur then _ else _) = []
        rw [h', if_neg (by simp [hasKey])]
      · show (if hasKey st'.content.sections st'.cur then _ else _) = []
        rw [h', if_neg (by simp [hasKey])]
      · show (if hasKey st'.content.sections st'.cur then _ else _) = []
        rw [h', if_neg (by simp [hasKey])]
  · intro elems e cat he hh hlen hcl
    have hgen : ∀ (l : List Elem) (st : WalkState), e ∈ l →
        clean_text e.text ∈ catList cat (List.foldl step st l).content := by
      intro l
      induction l with
      | nil => intro st h0; exact absurd h0 (by simp)
      | cons x xs ih =>
        intro st h0
        rcases List.mem_cons.mp h0 with h0 | h0
        · subst h0
          show clean_text e.text ∈
            catList cat (List.foldl step (step st e) xs).content
          have hself := step_self_mem st e cat hh hlen hcl
          have h := foldl_step_inv (P := fun st' =>
              clean_text e.text ∈ catList cat st'.content)
            xs (step st e) hself
            (fun st'' x' _ h' => step_mem_mono st'' x' cat _ h')
          exact h
        · exact ih (step st x) h0
    exact hgen elems initState he

/-- A heading element followed by two paragraph elements. -/
def demoHeadingElem : Elem := ⟨Tag.h2, "Introduction notes".toList⟩

/-- Witness for `heading_sectioning`: a concrete heading sets the section,
and a heading-free page keeps the section map empty while the paragraph
list is populated. -/
theorem heading_sectioning_witness :
    (demoHeadingElem.tag.isHeading = true ∧
      10 ≤ (clean_text demoHeadingElem.text).length ∧
      (step initState demoHeadingElem).cur = clean_text demoHeadingElem.text) ∧
    ((∀ e ∈ [demoParagraphElem], e.tag.isHeading = false) ∧
      (walkElems [demoParagraphElem]).sections = [] ∧
      clean_text demoParagraphElem.text ∈
        catList .paragraph (walkElems [demoParagraphElem])) := by
  refine ⟨⟨by decide, by decide, ?_⟩, ⟨?_, ?_, ?_⟩⟩
  · exact ((heading_sectioning).1 initState demoHeadingElem
      (by decide) (by decide)).1
  · intro e he
    simp only [List.mem_singleton] at he
    subst he
    decide
  · exact (heading_sectioning).2.1 [demoParagraphElem]
      (by intro e he; simp only [List.mem_singleton] at he; subst he; decide)
  · exact (heading_sectioning).2.2 [demoParagraphElem] demoParagraphElem
      .paragraph (by simp) (by decide) (by decide) (by decide)

/-! ### Specialized-path error handling (C9) -/

theorem shivaLoop_interrupted :
    ∀ (elems : List Elem) (k : Nat) (st : WalkState), k ≤ elems.length →
      shivaLoop (some k) st elems =
        .error (List.foldl shivaStep st (elems.take k)) := by
  intro elems
  induction elems with
  | nil =>
    intro k st hk
    have hk0 : k = 0 := by simpa using hk
    subst hk0
    rfl
  | cons e es ih =>
    intro k st hk
    cases k with
    | zero => rfl
    | succ j =>
      show shivaLoop (some j) (shivaStep st e) es = _
      rw [ih j (shivaStep st e) (by simpa using hk)]
      rfl

/-- A 15-character element containing the `शिव` marker: a shiva verse. -/
def shivaVerseElem : Elem := ⟨Tag.p, "शिव शिव शिव शिव".toList⟩

/-- A specialized-path input whose walk raises after one processed element. -/
def shivaErrorDoc : ShivaDoc := ⟨[shivaVerseElem, shivaVerseElem], [], some 1⟩

/-- The claim's "empty-but-valid PageReport content shape": every list empty
and the `full_text` field present, in its empty state. -/
def emptyShapeFT : ContentFT := ⟨Content.empty, some []⟩

/-- C9 counterexample: when the unexpected error fires after a verse was
accumulated, the specialized extractor returns a record with a non-empty
verse list and no `full_text` key at all — not the empty-but-valid shape
with its fields in their empty state. -/
theorem shiva_error_shape_cx :
    shivaExtract shivaErrorDoc ≠ emptyShapeFT ∧
    (shivaExtract shivaErrorDoc).content.verses ≠ [] ∧
    (shivaExtract shivaErrorDoc).fullText = none := by
  refine ⟨?_, ?_, ?_⟩ <;> decide

/-- C9 (amended): an unexpected error while the specialized-template
extractor walks the DOM is caught locally — the extractor returns the
content record accumulated up to the error (whose lists are empty when the
error precedes every element) with the `full_text` field unset, rather than
propagating the exception to the caller. -/
theorem shiva_catch (d : ShivaDoc) (k : Nat)
    (h : d.raiseAt = some k) (hk : k ≤ d.elems.length) :
    shivaExtract d =
      ⟨(List.foldl shivaStep shivaInit (d.elems.take k)).content, none⟩ ∧
    (k = 0 → shivaExtract d = ⟨Content.empty, none⟩) := by
  have hmain : shivaExtract d =
      ⟨(List.foldl shivaStep shivaInit (d.elems.take k)).content, none⟩ := by
    rw [shivaExtract, shivaTry, h, shivaLoop_interrupted d.elems k shivaInit hk]
  refine ⟨hmain, fun h0 => ?_⟩
  subst h0
  simpa using hmain

/-- Witness for `shiva_catch` at the concrete raising input. -/
theorem shiva_catch_witness :
    (shivaErrorDoc.raiseAt = some 1 ∧ 1 ≤ shivaErrorDoc.elems.length) ∧
    shivaExtract shivaErrorDoc =
      ⟨(List.foldl shivaStep shivaInit (shivaErrorDoc.elems.take 1)).content,
       none⟩ := by
  refine ⟨⟨rfl, by decide⟩, ?_⟩
  exact (shiva_catch shivaErrorDoc 1 rfl (by decide)).1

/-! ### Normalization invariants of the stored segments (C10) -/

/-- Every stored category text is a nonempty `clean_text` fixed point, and
every stored section segment is a `clean_text` fixed point. -/
def CleanStored (c : Content) : Prop :=
  (∀ t ∈ c.verses, clean_text t = t ∧ t ≠ []) ∧
  (∀ t ∈ c.meanings, clean_text t = t ∧ t ≠ []) ∧
  (∀ t ∈ c.paragraphs, clean_text t = t ∧ t ≠ []) ∧
  (∀ kv ∈ c.sections, ∀ x ∈ kv.2, clean_text x = x)

theorem addToSection_mem (key item : Str) :
    ∀ (secs : List (Str × List Str)) (kv : Str × List Str),
      kv ∈ addToSection secs key item → ∀ x ∈ kv.2,
      (∃ kv' ∈ secs, x ∈ kv'.2) ∨ x = item := by
  intro secs
  induction secs with
  | nil => intro kv hkv; simp [addToSection] at hkv
  | cons p ps ih =>
    intro kv hkv x hx
    obtain ⟨k, items⟩ := p
    rw [addToSection] at hkv
    by_cases hk : k = key
    · rw [if_pos hk] at hkv
      rcases List.mem_cons.mp hkv with h | h
      · subst h
        rcases List.mem_append.mp hx with h2 | h2
        · exact Or.inl ⟨(k, items), by simp, h2⟩
        · exact Or.inr (by simpa using h2)
      · exact Or.inl ⟨kv, by simp [h], hx⟩
    · rw [if_neg hk] at hkv
      rcases List.mem_cons.mp hkv with h | h
      · subst h
        exact Or.inl ⟨(k, items), by simp, hx⟩
      · rcases ih kv h x hx with ⟨kv', hkv', hx'⟩ | h2
        · exact Or.inl ⟨kv', by simp [hkv'], hx'⟩
        · exact Or.inr h2

theorem mark_clean_fixed (tag t : Str) (htag : tag ≠ [])
    (htagw : ∀ c ∈ tag, isPySpace c = false)
    (ht : clean_text t = t) (htne : t ≠ []) :
    clean_text (tag ++ [' '] ++ t) = tag ++ [' '] ++ t := by
  have e1 : tag ++ [' '] ++ t = tag ++ ' ' :: t := by simp
  rw [e1]
  exact clean_text_word_space tag t htag htagw ht htne

theorem step_clean_stored (st : WalkState) (e : Elem)
    (h : CleanStored st.content) : CleanStored (step st e).content := by
  obtain ⟨hv, hm, hp, hs⟩ := h
  rcases step_shape st e with h0 |
    ⟨hlen, ⟨_, h0⟩ | ⟨_, h0⟩ | ⟨_, h0⟩ | ⟨_, h0⟩⟩ <;> rw [h0]
  · exact ⟨hv, hm, hp, hs⟩
  · refine ⟨hv, hm, hp, ?_⟩
    show ∀ kv ∈ (if hasKey st.content.sections (clean_text e.text) then
        st.content.sections
      else st.content.sections ++ [(clean_text e.text, [])]), ∀ x ∈ kv.2,
      clean_text x = x
    by_cases hkey : hasKey st.content.sections (clean_text e.text) = true
    · rw [if_pos hkey]; exact hs
    · rw [if_neg hkey]
      intro kv hkv x hx
      rcases List.mem_append.mp hkv with h2 | h2
      · exact hs kv h2 x hx
      · have : kv = (clean_text e.text, []) := by simpa using h2
        subst this
        simp at hx
  all_goals {
    have hfix : clean_text (clean_text e.text) = clean_text e.text :=
      clean_text_idem e.text
    have hne : clean_text e.text ≠ [] := by
      intro h0
      rw [h0] at hlen
      simp at hlen
    constructor
    · intro t ht
      first
        | exact hv t ht
        | (rcases List.mem_append.mp ht with h2 | h2
           · exact hv t h2
           · have : t = clean_text e.text := by simpa using h2
             subst this
             exact ⟨hfix, hne⟩)
    constructor
    · intro t ht
      first
        | exact hm t ht
        | (rcases List.mem_append.mp ht with h2 | h2
           · exact hm t h2
           · have : t = clean_text e.text := by simpa using h2
             subst this
             exact ⟨hfix, hne⟩)
    constructor
    · intro t ht
      first
        | exact hp t ht
        | (rcases List.mem_append.mp ht with h2 | h2
           · exact hp t h2
           · have : t = clean_text e.text := by simpa using h2
             subst this
             exact ⟨hfix, hne⟩)
    · intro kv hkv x hx
      revert hkv
      show kv ∈ (if hasKey st.content.sections st.cur then _ else _) → _
      by_cases hkey : hasKey st.content.sections st.cur = true
      · rw [if_pos hkey]
        intro hkv
        rcases addToSection_mem st.cur _ st.content.sections kv hkv x hx with
          ⟨kv', hkv', hx'⟩ | h2
        · exact hs kv' hkv' x hx'
        · subst h2
          first
            | exact mark_clean_fixed "VERSE:".toList (clean_text e.text)
                (by decide) (by decide) hfix hne
            | exact mark_clean_fixed "MEANING:".toList (clean_text e.text)
                (by decide) (by decide) hfix hne
            | exact hfix
      · rw [if_neg hkey]
        intro hkv
        exact hs kv hkv x hx }

/-- C10: `clean_text` is idempotent and maps the empty string to the empty
string, so every segment stored in a category list or a section segment list
is a fixed point of `clean_text`. -/
theorem clean_text_normalization :
    (∀ s : Str, clean_text (clean_text s) = clean_text s) ∧
    clean_text [] = [] ∧
    (∀ (elems : List Elem) (t : Str),
      (t ∈ (walkElems elems).verses ∨ t ∈ (walkElems elems).meanings ∨
        t ∈ (walkElems elems).paragraphs) →
      clean_text t = t) ∧
    (∀ (elems : List Elem) (kv : Str × List Str) (x : Str),
      kv ∈ (walkElems elems).sections → x ∈ kv.2 → clean_text x = x) := by
  have hinv : ∀ elems : List Elem,
      CleanStored ((List.foldl step initState elems).content) := by
    intro elems
    exact foldl_step_inv (P := fun st => CleanStored st.content) elems initState
      ⟨by simp [Content.empty, initState], by simp [Content.empty, initState],
       by simp [Content.empty, initState], by simp [Content.empty, initState]⟩
      (fun st' e _ h' => step_clean_stored st' e h')
  refine ⟨clean_text_idem, clean_text_nil, ?_, ?_⟩
  · intro elems t hmem
    obtain ⟨hv, hm, hp, _⟩ := hinv elems
    rcases hmem with h | h | h
    · exact (hv t h).1
    · exact (hm t h).1
    · exact (hp t h).1
  · intro elems kv x hkv hx
    obtain ⟨_, _, _, hs⟩ := hinv elems
    exact hs kv hkv x hx

/-- Witness for `clean_text_normalization`: the stored text of the concrete
paragraph page is a `clean_text` fixed point. -/
theorem clean_text_normalization_witness :
    clean_text demoParagraphElem.text ∈ (walkElems paragraphOnlyPage).paragraphs ∧
    clean_text (clean_text demoParagraphElem.text) =
      clean_text demoParagraphElem.text := by
  refine ⟨by decide, ?_⟩
  exact (clean_text_normalization).2.2.1 paragraphOnlyPage
    (clean_text demoParagraphElem.text) (Or.inr (Or.inr (by decide)))

/-! ### Orchestration lemmas (C1, C3) -/

theorem requestsRun_result (t : Nat → Outcome) :
    ∀ (rem k : Nat), (requestsRun t k rem).result =
      (List.range' k rem).findSome? (attemptFilter acceptRequests t) := by
  intro rem
  induction rem with
  | zero => intro k; rfl
  | succ rem ih =>
    intro k
    rw [List.range'_succ, List.findSome?_cons]
    cases ht : t k with
    | raise =>
      simp only [requestsRun, ht, attemptFilter]
      exact ih (k + 1)
    | fetched p =>
      by_cases hp : acceptRequests p
      · simp [requestsRun, ht, attemptFilter, hp]
      · simp only [requestsRun, ht, attemptFilter, hp, Bool.false_eq_true, if_false]
        exact ih (k + 1)

theorem scrapingbeeAux_result (cfg : Cfg) :
    ∀ (rem k : Nat), scrapingbeeAux cfg k rem =
      (List.range' k rem).findSome? (attemptFilter acceptScrapingbee cfg.beeTry) := by
  intro rem
  induction rem with
  | zero => intro k; rfl
  | succ rem ih =>
    intro k
    rw [List.range'_succ, List.findSome?_cons]
    cases ht : cfg.beeTry k with
    | raise =>
      simp only [scrapingbeeAux, ht, attemptFilter]
      exact ih (k + 1)
    | fetched p =>
      by_cases hp : acceptScrapingbee p
      · simp [scrapingbeeAux, ht, attemptFilter, hp]
      · simp only [scrapingbeeAux, ht, attemptFilter, hp, Bool.false_eq_true, if_false]
        exact ih (k + 1)

/-- What `get_page` runs after the Playwright stage: requests, then
ScrapingBee when configured. -/
def afterBrowser (cfg : Cfg) : Option Page :=
  match get_page_with_requests cfg with
  | some p => some p
  | none =>
    if cfg.use_scrapingbee && cfg.api_key.isSome then get_page_with_scrapingbee cfg
    else none

/-- The Playwright loop followed by the rest of the chain equals "first
accepted Playwright attempt, else the rest of the chain": the inner
final-raise fallback to `_get_page_with_requests` is absorbed by the
orchestrator-level fallthrough. -/
theorem playwright_compose (cfg : Cfg) :
    ∀ (rem k : Nat),
      (match playwrightAux cfg k rem with
       | some p => some p
       | none => afterBrowser cfg) =
      (match (List.range' k rem).findSome? (attemptFilter acceptPlaywright cfg.pwTry) with
       | some p => some p
       | none => afterBrowser cfg) := by
  intro rem
  induction rem with
  | zero => intro k; rfl
  | succ rem ih =>
    intro k
    rw [List.range'_succ, List.findSome?_cons]
    cases ht : cfg.pwTry k with
    | fetched p =>
      by_cases hp : acceptPlaywright p
      · simp [playwrightAux, ht, attemptFilter, hp]
      · simp only [playwrightAux, ht, attemptFilter, hp, Bool.false_eq_true, if_false]
        exact ih (k + 1)
    | raise =>
      simp only [playwrightAux, ht, attemptFilter]
      by_cases hrem : rem = 0
      · subst hrem
        simp only [if_pos rfl]
        cases hr : get_page_with_requests cfg with
        | some q => simp [afterBrowser, hr]
        | none => simp [afterBrowser, hr]
      · rw [if_neg hrem]
        exact ih (k + 1)

/-- C1: `get_page` equals the spec's sequencing policy — browser attempts
first (only when enabled and initialized, and even when the browser adapter
raises on its final attempt the HTTP adapter is still consulted), then HTTP
attempts, then proxy attempts only when the API credential is configured —
and when every configured adapter is exhausted the total function returns
the absence value `none`; no exception escapes (every attempt outcome,
raising ones included, is consumed by the model). -/
theorem get_page_fallback_chain (cfg : Cfg) :
    get_page cfg = specFetch cfg ∧
    ((cfg.pwActive = true →
        firstAccepted cfg.pwTry acceptPlaywright cfg.max_retries = none) →
      firstAccepted cfg.httpTry acceptRequests cfg.max_retries = none →
      (cfg.beeConfigured = true →
        firstAccepted cfg.beeTry acceptScrapingbee cfg.max_retries = none) →
      get_page cfg = none) := by
  have hreq : get_page_with_requests cfg =
      firstAccepted cfg.httpTry acceptRequests cfg.max_retries := by
    rw [firstAccepted, List.range_eq_range']
    exact requestsRun_result cfg.httpTry cfg.max_retries 0
  have hbee : (cfg.use_scrapingbee && cfg.api_key.isSome) = true →
      get_page_with_scrapingbee cfg =
        firstAccepted cfg.beeTry acceptScrapingbee cfg.max_retries := by
    intro hc
    rw [get_page_with_scrapingbee, if_pos hc, firstAccepted,
      List.range_eq_range']
    exact scrapingbeeAux_result cfg cfg.max_retries 0
  have htail : afterBrowser cfg =
      (match firstAccepted cfg.httpTry acceptRequests cfg.max_retries with
       | some p => some p
       | none =>
         if cfg.beeConfigured then
           firstAccepted cfg.beeTry acceptScrapingbee cfg.max_retries
         else none) := by
    rw [afterBrowser, hreq]
    cases firstAccepted cfg.httpTry acceptRequests cfg.max_retries with
    | some q => rfl
    | none =>
      show (if cfg.use_scrapingbee && cfg.api_key.isSome then
              get_page_with_scrapingbee cfg else none) = _
      by_cases hc : (cfg.use_scrapingbee && cfg.api_key.isSome) = true
      · rw [if_pos hc, hbee hc, Cfg.beeConfigured, if_pos hc]
      · rw [if_neg hc, Cfg.beeConfigured, if_neg hc]
  have hmain : get_page cfg = specFetch cfg := by
    rw [get_page, specFetch, Cfg.pwActive]
    by_cases hpw : (cfg.use_playwright && cfg.page_ready) = true
    · rw [if_pos hpw, if_pos hpw, get_page_with_playwright, if_pos hpw]
      have h1 := playwright_compose cfg cfg.max_retries 0
      rw [show firstAccepted cfg.pwTry acceptPlaywright cfg.max_retries =
            (List.range' 0 cfg.max_retries).findSome?
              (attemptFilter acceptPlaywright cfg.pwTry) from by
          rw [firstAccepted, List.range_eq_range']]
      calc (match playwrightAux cfg 0 cfg.max_retries with
            | some p => some p
            | none =>
              match get_page_with_requests cfg with
              | some p => some p
              | none =>
                if cfg.use_scrapingbee && cfg.api_key.isSome then
                  get_page_with_scrapingbee cfg
                else none)
          = (match playwrightAux cfg 0 cfg.max_retries with
             | some p => some p
             | none => afterBrowser cfg) := by
            cases playwrightAux cfg 0 cfg.max_retries <;> rfl
        _ = (match (List.range' 0 cfg.max_retries).findSome?
                (attemptFilter acceptPlaywright cfg.pwTry) with
             | some p => some p
             | none => afterBrowser cfg) := h1
        _ = _ := by
            cases (List.range' 0 cfg.max_retries).findSome?
                (attemptFilter acceptPlaywright cfg.pwTry) with
            | some q => rfl
            | none => rw [htail]
    · rw [if_neg hpw, if_neg hpw]
      show (match get_page_with_requests cfg with
            | some p => some p
            | none =>
              if cfg.use_scrapingbee && cfg.api_key.isSome then
                get_page_with_scrapingbee cfg
              else none) = _
      calc _ = afterBrowser cfg := by
            cases hr : get_page_with_requests cfg <;> simp [afterBrowser, hr]
        _ = _ := htail
  refine ⟨hmain, ?_⟩
  intro h1 h2 h3
  rw [hmain, specFetch]
  by_cases hpw : cfg.pwActive
  · rw [if_pos hpw, h1 hpw, h2]
    by_cases hc : cfg.beeConfigured
    · rw [if_pos hc, h3 hc]
    · rw [if_neg hc]
  · rw [if_neg hpw, h2]
    by_cases hc : cfg.beeConfigured
    · rw [if_pos hc, h3 hc]
    · rw [if_neg hc]

/-- A configuration whose three adapters raise on every attempt. -/
def cfgAllRaise : Cfg :=
  ⟨true, true, true, some "key", fun _ => .raise, fun _ => .raise, fun _ => .raise, 3⟩

/-- Witness for `get_page_fallback_chain`: with every attempt of every
adapter raising, the orchestrator returns `none`. -/
theorem get_page_fallback_chain_witness :
    cfgAllRaise.pwActive = true ∧
    firstAccepted cfgAllRaise.httpTry acceptRequests cfgAllRaise.max_retries = none ∧
    get_page cfgAllRaise = none := by
  refine ⟨rfl, rfl, ?_⟩
  exact (get_page_fallback_chain cfgAllRaise).2 (fun _ => rfl) rfl (fun _ => rfl)

/-- A fetch stub that raises on its first `n` attempts and then returns an
acceptable page. -/
def stubFail (n : Nat) (p : Page) : Nat → Outcome :=
  fun k => if k < n then .raise else .fetched p

/-- An acceptable page: 1000 bytes, no blocklist term anywhere. -/
def pGood : Page := ⟨List.replicate 1000 'a', []⟩

/-- Trace of one traced adapter run: the returned page, the number of fetch
attempts made, and the backoff sleeps performed (in order). -/
structure RunTrace where
  result : Option Page
  calls : Nat
  waits : List Nat
  deriving DecidableEq

/-- The retry loop of `_get_page_with_scrapingbee` (scraper.py lines
386-443) with its call/backoff trace: like the HTTP adapter it sleeps
`2 ** attempt` seconds before attempt `attempt` when `attempt > 0`. -/
def scrapingbeeRun (cfg : Cfg) (k : Nat) : Nat → RunTrace
  | 0 => ⟨none, 0, []⟩
  | rem + 1 =>
    let w : List Nat := if k > 0 then [2 ^ k] else []
    match cfg.beeTry k with
    | .raise =>
      let rest := scrapingbeeRun cfg (k + 1) rem
      ⟨rest.result, rest.calls + 1, w ++ rest.waits⟩
    | .fetched p =>
      if acceptScrapingbee p then ⟨some p, 1, w⟩
      else
        let rest := scrapingbeeRun cfg (k + 1) rem
        ⟨rest.result, rest.calls + 1, w ++ rest.waits⟩

/-- The retry loop of `_get_page_with_playwright` (scraper.py lines 451-512)
with its call/backoff trace: here the backoff `time.sleep(2 ** attempt)`
runs in the `except` handler, after a raising non-final attempt — a
gate-rejected attempt `continue`s with no sleep, and a raising final attempt
returns the requests result.  (The fixed 2-second dynamic-content pause in a
successful body is not a backoff and is not traced.) -/
def playwrightRun (cfg : Cfg) (k : Nat) : Nat → RunTrace
  | 0 => ⟨none, 0, []⟩
  | rem + 1 =>
    match cfg.pwTry k with
    | .fetched p =>
      if acceptPlaywright p then ⟨some p, 1, []⟩
      else
        let rest := playwrightRun cfg (k + 1) rem
        ⟨rest.result, rest.calls + 1, rest.waits⟩
    | .raise =>
      if rem = 0 then ⟨get_page_with_requests cfg, 1, []⟩
      else
        let rest := playwrightRun cfg (k + 1) rem
        ⟨rest.result, rest.calls + 1, 2 ^ k :: rest.waits⟩

/-- The traced ScrapingBee loop returns what `scrapingbeeAux` returns. -/
theorem scrapingbeeRun_result (cfg : Cfg) :
    ∀ (rem k : Nat),
      (scrapingbeeRun cfg k rem).result = scrapingbeeAux cfg k rem := by
  intro rem
  induction rem with
  | zero => intro k; rfl
  | succ rem ih =>
    intro k
    cases ht : cfg.beeTry k with
    | raise =>
      simp only [scrapingbeeRun, scrapingbeeAux, ht]
      exact ih (k + 1)
    | fetched p =>
      by_cases hp : acceptScrapingbee p
      · simp [scrapingbeeRun, scrapingbeeAux, ht, hp]
      · simp only [scrapingbeeRun, scrapingbeeAux, ht, hp, Bool.false_eq_true,
          if_false]
        exact ih (k + 1)

/-- The traced Playwright loop returns what `playwrightAux` returns. -/
theorem playwrightRun_result (cfg : Cfg) :
    ∀ (rem k : Nat),
      (playwrightRun cfg k rem).result = playwrightAux cfg k rem := by
  intro rem
  induction rem with
  | zero => intro k; rfl
  | succ rem ih =>
    intro k
    cases ht : cfg.pwTry k with
    | fetched p =>
      by_cases hp : acceptPlaywright p
      · simp [playwrightRun, playwrightAux, ht, hp]
      · simp only [playwrightRun, playwrightAux, ht, hp, Bool.false_eq_true,
          if_false]
        exact ih (k + 1)
    | raise =>
      by_cases hrem : rem = 0
      · subst hrem
        simp [playwrightRun, playwrightAux, ht]
      · simp only [playwrightRun, playwrightAux, ht, hrem, if_false]
        exact ih (k + 1)

/-- A configuration whose three adapters are stubs raising twice and then
succeeding. -/
def cfgStub2 : Cfg :=
  ⟨true, true, true, some "key", stubFail 2 pGood, stubFail 2 pGood,
   stubFail 2 pGood, 3⟩

/-- C3 counterexample: with a stub failing twice and then succeeding
(`max_retries = 3`), the backoff sleeps performed by
`_get_page_with_requests` are `[2, 4]` seconds — `2 ** attempt` before
attempt 1 and attempt 2 — not the `{1, 2, 4, ...}` sequence the claim
asserts; the browser adapter's sleeps on the same stub are `[1, 2]`, so no
single per-adapter backoff sequence exists. -/
theorem requests_backoff_cx :
    (requestsRun (stubFail 2 pGood) 0 3).calls = 3 ∧
    (requestsRun (stubFail 2 pGood) 0 3).waits = [2, 4] ∧
    (requestsRun (stubFail 2 pGood) 0 3).waits ≠ [1, 2] ∧
    (playwrightRun cfgStub2 0 3).waits = [1, 2] ∧
    (playwrightRun cfgStub2 0 3).waits ≠ (requestsRun (stubFail 2 pGood) 0 3).waits := by
  refine ⟨?_, ?_, ?_, ?_, ?_⟩ <;> decide

theorem requestsRun_stub (n : Nat) (p : Page) (hp : acceptRequests p = true) :
    ∀ (rem k : Nat), 1 ≤ k → k ≤ n → n < k + rem →
      requestsRun (stubFail n p) k rem =
        ⟨some p, n + 1 - k, (List.range' k (n + 1 - k)).map (fun i => 2 ^ i),
         (List.range' k (n + 1 - k)).map
           (fun i => user_agents.getD (i % user_agents.length) "")⟩ := by
  intro rem
  induction rem with
  | zero => intro k _ hk2 hk3; omega
  | succ rem ih =>
    intro k hk1 hk2 hk3
    by_cases hkn : k < n
    · have ht : stubFail n p k = .raise := by simp [stubFail, hkn]
      have hrec := ih (k + 1) (by omega) (by omega) (by omega)
      simp only [requestsRun, ht, hrec]
      have hn1 : n + 1 - k = (n + 1 - (k + 1)) + 1 := by omega
      rw [hn1, List.range'_succ]
      simp only [List.map_cons]
      have hw : (if k > 0 then [2 ^ k] else []) = [2 ^ k] := by
        rw [if_pos (by omega)]
      rw [hw]
      rfl
    · have hkn' : k = n := by omega
      subst hkn'
      have ht : stubFail k p k = .fetched p := by simp [stubFail]
      simp only [requestsRun, ht, hp, if_true]
      have hn1 : k + 1 - k = 1 := by omega
      rw [hn1]
      have hw : (if k > 0 then [2 ^ k] else []) = [2 ^ k] := by
        rw [if_pos (by omega)]
      rw [hw]
      rfl

/-- Top-level run of the HTTP retry loop against a stub failing `n` times:
attempt 0 sleeps nothing, attempts `1..n` sleep `2 ^ k` each. -/
theorem requestsRun_stub_zero (n maxR : Nat) (p : Page)
    (hn : n < maxR) (hp : acceptRequests p = true) :
    requestsRun (stubFail n p) 0 maxR =
      ⟨some p, n + 1, (List.range' 1 n).map (fun i => 2 ^ i),
       (List.range (n + 1)).map
         (fun i => user_agents.getD (i % user_agents.length) "")⟩ := by
  cases maxR with
  | zero => omega
  | succ rem =>
    by_cases hn0 : n = 0
    · subst hn0
      have ht : stubFail 0 p 0 = .fetched p := by simp [stubFail]
      simp only [requestsRun, ht, hp, if_true]
      rfl
    · have ht : stubFail n p 0 = .raise := by simp [stubFail]; omega
      have hrec := requestsRun_stub n p hp rem 1 (by omega) (by omega) (by omega)
      simp only [requestsRun, ht, hrec]
      have h1 : n + 1 - 1 = n := by omega
      rw [h1]
      have hw : (if (0 : Nat) > 0 then [2 ^ (0 : Nat)] else []) = [] := by simp
      rw [hw]
      have hr : List.range (n + 1) = 0 :: List.range' 1 n := by
        rw [List.range_eq_range', List.range'_succ]
      rw [hr]
      rfl

theorem scrapingbeeRun_stub (n : Nat) (p : Page) (cfg : Cfg)
    (hbee : cfg.beeTry = stubFail n p) (hp : acceptScrapingbee p = true) :
    ∀ (rem k : Nat), 1 ≤ k → k ≤ n → n < k + rem →
      scrapingbeeRun cfg k rem =
        ⟨some p, n + 1 - k, (List.range' k (n + 1 - k)).map (fun i => 2 ^ i)⟩ := by
  intro rem
  induction rem with
  | zero => intro k _ hk2 hk3; omega
  | succ rem ih =>
    intro k hk1 hk2 hk3
    by_cases hkn : k < n
    · have ht : cfg.beeTry k = .raise := by simp [hbee, stubFail, hkn]
      have hrec := ih (k + 1) (by omega) (by omega) (by omega)
      simp only [scrapingbeeRun, ht, hrec]
      have hn1 : n + 1 - k = (n + 1 - (k + 1)) + 1 := by omega
      rw [hn1, List.range'_succ]
      simp only [List.map_cons]
      have hw : (if k > 0 then [2 ^ k] else []) = [2 ^ k] := by
        rw [if_pos (by omega)]
      rw [hw]
      rfl
    · have hkn' : k = n := by omega
      subst hkn'
      have ht : cfg.beeTry k = .fetched p := by simp [hbee, stubFail]
      simp only [scrapingbeeRun, ht, hp, if_true]
      have hn1 : k + 1 - k = 1 := by omega
      rw [hn1]
      have hw : (if k > 0 then [2 ^ k] else []) = [2 ^ k] := by
        rw [if_pos (by omega)]
      rw [hw]
      rfl

theorem playwrightRun_stub (n : Nat) (p : Page) (cfg : Cfg)
    (hpw : cfg.pwTry = stubFail n p) (hp : acceptPlaywright p = true) :
    ∀ (rem k : Nat), k ≤ n → n < k + rem →
      playwrightRun cfg k rem =
        ⟨some p, n + 1 - k, (List.range' k (n - k)).map (fun i => 2 ^ i)⟩ := by
  intro rem
  induction rem with
  | zero => intro k hk2 hk3; omega
  | succ rem ih =>
    intro k hk2 hk3
    by_cases hkn : k < n
    · have ht : cfg.pwTry k = .raise := by simp [hpw, stubFail, hkn]
      have hrem : ¬ rem = 0 := by omega
      have hrec := ih (k + 1) (by omega) (by omega)
      simp only [playwrightRun, ht]
      rw [if_neg hrem]
      simp only [hrec]
      have hn1 : n - k = (n - (k + 1)) + 1 := by omega
      rw [hn1, List.range'_succ]
      simp only [List.map_cons]
      have hn2 : n + 1 - k = (n + 1 - (k + 1)) + 1 := by omega
      rw [hn2]
    · have hkn' : k = n := by omega
      subst hkn'
      have ht : cfg.pwTry k = .fetched p := by simp [hpw, stubFail]
      simp only [playwrightRun, ht, hp, if_true]
      have hn1 : k + 1 - k = 1 := by omega
      have hn0 : k - k = 0 := by omega
      rw [hn1, hn0]
      rfl

/-- C3 (amended): per adapter, up to `max_retries` attempts are made, and a
fetch stub that raises `n` times and then succeeds (`n < max_retries`) is
called exactly `n + 1` times by each adapter; the HTTP and proxy adapters
wait `2 ^ k` seconds before attempt `k` (0-indexed, `k > 0`), so their
elapsed backoff sequence is `{2, 4, 8, ...}`, while the browser adapter
sleeps `2 ^ k` seconds after raising attempt `k` (and never after a gate
rejection), so its elapsed sequence is `{1, 2, 4, ...}`; and the HTTP
adapter's User-Agent for attempt `k` is the fixed pool's entry at index `k`
modulo the pool size. -/
theorem retry_backoff_per_adapter (n : Nat) (p : Page) (cfg : Cfg)
    (hn : n < cfg.max_retries)
    (hhttp : cfg.httpTry = stubFail n p)
    (hbee : cfg.beeTry = stubFail n p)
    (hpw : cfg.pwTry = stubFail n p)
    (hp : acceptRequests p = true)
    (hpb : acceptScrapingbee p = true) :
    requestsRun cfg.httpTry 0 cfg.max_retries =
      ⟨some p, n + 1, (List.range' 1 n).map (fun i => 2 ^ i),
       (List.range (n + 1)).map
         (fun i => user_agents.getD (i % user_agents.length) "")⟩ ∧
    scrapingbeeRun cfg 0 cfg.max_retries =
      ⟨some p, n + 1, (List.range' 1 n).map (fun i => 2 ^ i)⟩ ∧
    playwrightRun cfg 0 cfg.max_retries =
      ⟨some p, n + 1, (List.range n).map (fun i => 2 ^ i)⟩ := by
  refine ⟨?_, ?_, ?_⟩
  · rw [hhttp]
    exact requestsRun_stub_zero n cfg.max_retries p hn hp
  · cases hmr : cfg.max_retries with
    | zero => omega
    | succ rem =>
      by_cases hn0 : n = 0
      · subst hn0
        have ht : cfg.beeTry 0 = .fetched p := by simp [hbee, stubFail]
        simp only [scrapingbeeRun, ht, hpb, if_true]
        rfl
      · have ht : cfg.beeTry 0 = .raise := by simp [hbee, stubFail]; omega
        have hrec := scrapingbeeRun_stub n p cfg hbee hpb rem 1
          (by omega) (by omega) (by omega)
        simp only [scrapingbeeRun, ht, hrec]
        have h1 : n + 1 - 1 = n := by omega
        rw [h1]
        have hw : (if (0 : Nat) > 0 then [2 ^ (0 : Nat)] else []) = [] := by simp
        rw [hw]
        rfl
  · have hpp : acceptPlaywright p = true := hp
    have h := playwrightRun_stub n p cfg hpw hpp cfg.max_retries 0
      (by omega) (by omega)
    rw [h, List.range_eq_range']
    rfl

/-- A configuration whose three adapters are stubs raising once and then
succeeding. -/
def cfgStub1 : Cfg :=
  ⟨true, true, true, some "key", stubFail 1 pGood, stubFail 1 pGood,
   stubFail 1 pGood, 3⟩

/-- Witness for `retry_backoff_per_adapter` at one failure then success
under `max_retries = 3`: two calls per adapter, backoff `[2]` for the HTTP
and proxy adapters but `[1]` for the browser adapter. -/
theorem retry_backoff_per_adapter_witness :
    (1 < cfgStub1.max_retries ∧ cfgStub1.httpTry = stubFail 1 pGood ∧
      acceptRequests pGood = true ∧ acceptScrapingbee pGood = true) ∧
    requestsRun cfgStub1.httpTry 0 cfgStub1.max_retries =
      ⟨some pGood, 2, [2], [user_agents.getD 0 "", user_agents.getD 1 ""]⟩ ∧
    scrapingbeeRun cfgStub1 0 cfgStub1.max_retries = ⟨some pGood, 2, [2]⟩ ∧
    playwrightRun cfgStub1 0 cfgStub1.max_retries = ⟨some pGood, 2, [1]⟩ := by
  have h := retry_backoff_per_adapter 1 pGood cfgStub1 (by decide) rfl rfl rfl
    (by decide) (by decide)
  refine ⟨⟨by decide, rfl, by decide, by decide⟩, ?_, ?_, ?_⟩
  · rw [h.1]; decide
  · rw [h.2.1]; decide
  · rw [h.2.2]; decide

/-- Witness for `scrape_example_counts_and_preview` at a concrete 1000- and a
concrete 1001-character `full_text`. -/
theorem scrape_example_counts_and_preview_witness :
    ((List.replicate 1000 'a' : Str).length ≤ 1000 ∧
      (scrape_page_data Content.empty (List.replicate 1000 'a')).preview =
        List.replicate 1000 'a') ∧
    (1000 < (List.replicate 1001 'a' : Str).length ∧
      ((scrape_page_data Content.empty (List.replicate 1001 'a')).preview).length = 1003) := by
  constructor
  · exact ⟨by simp, (scrape_example_counts_and_preview Content.empty
      (List.replicate 1000 'a')).2.2.2.1 (by simp)⟩
  · exact ⟨by simp, (scrape_example_counts_and_preview Content.empty
      (List.replicate 1001 'a')).2.2.2.2.2 (by simp)⟩

end Scraper
